import Mathlib

/-!
Verification development for the provable requantization subsystem of the
deep-prove zkML inference prover.

The definitions below are a shallow embedding of the Rust sources
src/zkml/src/layers/requant.rs and src/zkml/src/layers/provable/mod.rs.

Modelling conventions:
* The Rust Element type is i128; it is modelled as Lean Int.  The inputs
  handled by the requant layer are far below the i128 overflow boundary,
  so wrap-around is not modelled.
* Rust arithmetic right shift on i128 is floor division by a power of two,
  which is exactly Int shiftRight in Lean; left shift is multiplication by
  a power of two; bitwise and is Int.land (two's complement semantics).
* Field elements: the code sends integers into an extension field through
  the canonical map (Fieldizer to_field followed by as_bases, a ring
  homomorphism from Int).  Statements are therefore made over an arbitrary
  commutative ring R, with Int.cast and Nat.cast as the lifting maps; the
  concrete extension field of the code is one instance.
* The Rust functions that can panic (assert, unwrap-style indexing,
  the test-only multiplier path) or return an anyhow error are modelled
  with Option or with the CResult type, which distinguishes a panic from
  a returned error.
-/

/-- Fuel-driven ceiling base-2 logarithm; structurally recursive so that
the kernel can evaluate it.  Agrees with Nat.clog 2 when the fuel is at
least the argument (theorem ceil_log2_eq_clog below). -/
def ceil_log2_fuel : ℕ → ℕ → ℕ
  | 0, _ => 0
  | fuel + 1, n => if n ≤ 1 then 0 else ceil_log2_fuel fuel ((n + 1) / 2) + 1

/-- The gkr util ceil_log2 (ceiling of the base-2 logarithm, 0 for 1). -/
def ceil_log2 (n : ℕ) : ℕ := ceil_log2_fuel n n

/-- Rust usize::next_power_of_two: the least power of two that is >= n
(1 for n = 0 and n = 1). -/
def next_power_of_two (n : ℕ) : ℕ := 2 ^ ceil_log2 n

/-- Fuel-driven floor base-2 logarithm; structurally recursive so that the
kernel can evaluate it.  Agrees with Nat.log2 when the fuel is at least
the argument (theorem usize_ilog2_eq_log2 below). -/
def usize_ilog2_fuel : ℕ → ℕ → ℕ
  | 0, _ => 0
  | fuel + 1, n => if n < 2 then 0 else usize_ilog2_fuel fuel (n / 2) + 1

/-- Rust u32/usize ilog2: the floor of the base-2 logarithm. -/
def usize_ilog2 (n : ℕ) : ℕ := usize_ilog2_fuel n n

/-- Rust i128 left shift: multiplication by a power of two (overflow is out
of the modelled range). -/
def i128_shl (x : ℤ) (n : ℕ) : ℤ := x * 2 ^ n

/-- The Requant parameter struct from requant.rs.  The test-only multiplier
field is Option of f32 in Rust; its payload is never read on a non-panicking
path (apply panics unconditionally when it is set), so only its presence is
modelled. -/
structure Requant where
  right_shift : ℕ
  range : ℕ
  after_range : ℕ
  multiplier : Option Unit
deriving DecidableEq, Repr

/-- The RequantCtx verifier context from requant.rs. -/
structure RequantCtx where
  requant : Requant
  poly_id : ℕ
  num_vars : ℕ
deriving DecidableEq, Repr

/-- The RequantResult enum from requant.rs: the element-wise result of apply,
tagged with whether the value landed inside the quantized range. -/
inductive RequantResult where
  | Ok (v : ℤ)
  | OutOfRange (v : ℤ)
deriving DecidableEq, Repr

/-- Modelled from the spec: a tensor is a shape together with flat data
(crate::tensor is not under src/; Tensor::new, get_shape and get_data are
the only operations the requant layer uses). -/
structure Tensor where
  shape : List ℕ
  data : List ℤ
deriving DecidableEq, Repr

/-- A Claim is a pair of an evaluation point and an evaluation. -/
structure Claim (R : Type) where
  point : List R
  eval : R
deriving DecidableEq, Repr

/-- Requant::apply from requant.rs.  qmin and qmax stand for the global
quantization::MIN and quantization::MAX constants (their defining module is
not under src/; per the spec they bound the quantized output domain).
none models a panic: the test-only multiplier path panics unconditionally,
and the assert tmp >= 0 fails when the offset is too small. -/
def Requant.apply (qmin qmax : ℤ) (rq : Requant) (e : ℤ) : Option RequantResult :=
  match rq.multiplier with
  | some _ => none
  | none =>
    let max_bit : ℤ := ((rq.range <<< 1 : ℕ) : ℤ)
    let tmp := e + max_bit
    if tmp < 0 then none
    else
      let tmp := tmp >>> rq.right_shift
      let res := tmp - (max_bit >>> rq.right_shift)
      if qmin ≤ res ∧ res ≤ qmax then some (.Ok res) else some (.OutOfRange res)

/-- The element loop of Requant::op: map apply over the data, unwrapping both
the Ok and the OutOfRange payloads.  The not_ok_count incremented on the
OutOfRange arm only feeds a test-only debug log, so it is not modelled. -/
def Requant.opData (qmin qmax : ℤ) (rq : Requant) : List ℤ → Option (List ℤ)
  | [] => some []
  | e :: rest =>
    match rq.apply qmin qmax e with
    | none => none
    | some (.Ok v) => (rq.opData qmin qmax rest).map (v :: ·)
    | some (.OutOfRange v) => (rq.opData qmin qmax rest).map (v :: ·)

/-- Requant::op from requant.rs: element-wise apply, rebuilt into a tensor
with the input's shape. -/
def Requant.op (qmin qmax : ℤ) (rq : Requant) (t : Tensor) : Option Tensor :=
  (rq.opData qmin qmax t.data).map (fun res => ⟨t.shape, res⟩)

/-- The num_columns expression shared by prep_for_requantize and
lookup_witness in requant.rs:
(right_shift - 1) / ceil_log2(after_range) + 2 (usize floor division). -/
def Requant.num_columns (rq : Requant) : ℕ :=
  (rq.right_shift - 1) / ceil_log2 rq.after_range + 2

/-- The num_instances expression of RequantCtx::verify_requant in
requant.rs: the number of LogUp instances handed to verify_logup_proof. -/
def RequantCtx.verify_num_instances (ctx : RequantCtx) : ℕ :=
  (ctx.requant.right_shift - 1) / ceil_log2 ctx.requant.after_range + 2

/-- The chunk loop of prep_for_requantize, in processing order (the Rust
loop iterates the columns 1..K-1 in reverse, so the first produced chunk
belongs to the last column): mask with after_range - 1, subtract
after_range >> 1, then shift the remainder right by after_range.ilog2(). -/
def Requant.prepChunksRev (rq : Requant) : ℕ → ℤ → List ℤ
  | 0, _ => []
  | t + 1, r =>
    (Int.land r ((rq.after_range : ℤ) - 1) - ((rq.after_range : ℤ) >>> 1)) ::
      rq.prepChunksRev t (r >>> usize_ilog2 rq.after_range)

/-- The chunk loop of lookup_witness, in processing order: mask with
next_power_of_two(after_range) - 1, no offset, then shift the remainder
right by ceil_log2(after_range). -/
def Requant.lookupChunksRev (rq : Requant) : ℕ → ℤ → List ℤ
  | 0, _ => []
  | t + 1, r =>
    (Int.land r ((next_power_of_two rq.after_range : ℕ) - 1 : ℤ)) ::
      rq.lookupChunksRev t (r >>> ceil_log2 rq.after_range)

/-- The per-element column values written by prep_for_requantize at one
input index: column 0 holds tmp - subtract, columns 1..K-1 hold the
discarded chunks most-significant first. -/
def Requant.prepRow (rq : Requant) (val : ℤ) : List ℤ :=
  let max_bit : ℕ := rq.range <<< 1
  let subtract : ℕ := max_bit >>> rq.right_shift
  let pre_shift : ℤ := val + (max_bit : ℤ)
  let tmp : ℤ := pre_shift >>> rq.right_shift
  (tmp - (subtract : ℤ)) ::
    (rq.prepChunksRev (rq.num_columns - 1) (pre_shift - i128_shl tmp rq.right_shift)).reverse

/-- The per-element column values written by lookup_witness at one input
index: column 0 holds tmp - subtract + (after_range >> 1), columns 1..K-1
hold the discarded chunks most-significant first. -/
def Requant.lookupRow (rq : Requant) (val : ℤ) : List ℤ :=
  let max_bit : ℕ := rq.range <<< 1
  let subtract : ℕ := max_bit >>> rq.right_shift
  let pre_shift : ℤ := val + (max_bit : ℤ)
  let tmp : ℤ := pre_shift >>> rq.right_shift
  (tmp - (subtract : ℤ) + ((rq.after_range : ℤ) >>> 1)) ::
    (rq.lookupChunksRev (rq.num_columns - 1) (pre_shift - i128_shl tmp rq.right_shift)).reverse

/-- Requant::prep_for_requantize from requant.rs: num_columns columns, each
allocated with 2 ^ ceil_log2(input.len()) cells initialized to zero; the
cell at (column j, index i) for i < input.len() receives the j-th value of
the per-element decomposition.  The columns store base-field images of the
integers computed here; the embedding keeps the integers and casts in the
statements. -/
def Requant.prep_for_requantize (rq : Requant) (input : List ℤ) : List (List ℤ) :=
  let num_vars := ceil_log2 input.length
  (List.range rq.num_columns).map fun j =>
    (List.range (2 ^ num_vars)).map fun i =>
      match input.get? i with
      | some v => (rq.prepRow v).getD j 0
      | none => 0

/-- Requant::lookup_witness from requant.rs: returns the concatenation of
the integer lookup columns (lookups.concat(), the multiset sent to the
Range table) together with the columns themselves.  The Rust function keeps
the same integers twice, once as i128 and once reduced into the base field;
the embedding keeps a single integer copy. -/
def Requant.lookup_witness (rq : Requant) (input : List ℤ) : List ℤ × List (List ℤ) :=
  let num_vars := ceil_log2 input.length
  let lookups := (List.range rq.num_columns).map fun j =>
    (List.range (2 ^ num_vars)).map fun i =>
      match input.get? i with
      | some v => (rq.lookupRow v).getD j 0
      | none => 0
  (lookups.flatten, lookups)

/-- Requant::recombine_claims from requant.rs, over any commutative ring R
(the Rust function is generic over E with From u64, Add, Mul, Sub; the
u64 casts are Nat casts).  The Rust code indexes eval_claims[0], which
panics on an empty slice; every call site passes a nonempty list, and the
embedding reads the head with default zero. -/
def Requant.recombine_claims {R : Type} [CommRing R] (rq : Requant)
    (eval_claims : List R) : R :=
  let max_bit : ℕ := rq.range <<< 1
  let subtract : ℕ := max_bit >>> rq.right_shift
  let tmp_eval :=
    ((2 ^ rq.right_shift : ℕ) : R) *
        (eval_claims.headD 0 + ((subtract : ℕ) : R) - ((rq.after_range >>> 1 : ℕ) : R))
      + ((eval_claims.drop 1).reverse.enum.foldl
          (fun acc p => acc + ((next_power_of_two rq.after_range ^ p.1 : ℕ) : R) * p.2) 0)
  tmp_eval - ((max_bit : ℕ) : R)

/-- The observable behaviour of Requant::prove_step with the black boxes
abstracted: output_claims stands for logup_proof.output_claims() (the
per-column LogUp claims at a common point).  The result is the pair of
the claims added to the same-poly prover, in order, and the input-side
claim returned to the caller; none models the anyhow error raised when
the LogUp proof carries no claims.  RANGE stands for the global
quantization::RANGE constant (modelled from the spec: its module is not
under src/; it is a process-wide constant, equal to after_range for every
requant built by Requant::new). -/
def Requant.prove_step_model {R : Type} [CommRing R] (RANGE : ℕ) (rq : Requant)
    (last_claim : Claim R) (output_claims : List (Claim R)) :
    Option (List (Claim R) × Claim R) :=
  let eval_claims := output_claims.map (·.eval)
  let combined_eval := rq.recombine_claims eval_claims
  match output_claims.head? with
  | none => none
  | some first =>
    let point := first.point
    let corrected : Claim R := ⟨point, first.eval - ((RANGE / 2 : ℕ) : R)⟩
    some ([last_claim, corrected], ⟨point, combined_eval⟩)

/-- The observable behaviour of RequantCtx::verify_requant with the black
boxes abstracted: verifier_claims stands for verifier_claims.claims() (the
claims produced by verify_logup_proof).  The result is the pair of the
claims added to the same-poly verifier, in order, and the input-side claim
returned; none models the anyhow error raised when no claims are found.
RANGE is as in prove_step_model. -/
def RequantCtx.verify_requant_model {R : Type} [CommRing R] (RANGE : ℕ)
    (ctx : RequantCtx) (last_claim : Claim R) (verifier_claims : List (Claim R)) :
    Option (List (Claim R) × Claim R) :=
  match verifier_claims.head? with
  | none => none
  | some first =>
    let point := first.point
    let corrected : Claim R := ⟨point, first.eval - ((RANGE / 2 : ℕ) : R)⟩
    let eval_claims := verifier_claims.map (·.eval)
    let eval := ctx.requant.recombine_claims eval_claims
    some ([last_claim, corrected], ⟨point, eval⟩)

/-- An Edge from provable/mod.rs: a wire endpoint.  node is none when the
wire is a model-level input or output. -/
structure Edge where
  node : Option ℕ
  index : ℕ
deriving DecidableEq, Repr

/-- An OutputWire from provable/mod.rs: the downstream edges of one output
of a node. -/
structure OutputWire where
  edges : List Edge
deriving DecidableEq, Repr

/-- The connectivity of a NodeCtx from provable/mod.rs.  The LayerCtx
payload is not modelled: claims_for_node and input_claims only read the
input and output edges. -/
structure NodeConn where
  inputs : List Edge
  outputs : List OutputWire
deriving DecidableEq, Repr

/-- Result of a routing function, separating a Rust panic (assert failure
or out-of-bounds indexing) from a returned anyhow error. -/
inductive CResult (α : Type) where
  | assertFail
  | errFail
  | ok (val : α)
deriving DecidableEq, Repr

/-- Resolution of one downstream edge in NodeCtx::claims_for_node: an edge
into another node is looked up in the claims map (missing entry or
out-of-range index is an anyhow error), an edge with node = none reads the
model output claims (out-of-range index is an anyhow error).  The claims
map is the HashMap of per-node claim vectors, modelled as an association
list. -/
def resolveEdge {R : Type} (claims_by_node : List (ℕ × List (Claim R)))
    (output_claims : List (Claim R)) (e : Edge) : CResult (Claim R) :=
  match e.node with
  | some id =>
    match claims_by_node.lookup id with
    | none => .errFail
    | some cs =>
      if hc : e.index < cs.length then .ok (cs.get ⟨e.index, hc⟩)
      else .errFail
  | none =>
    if hc : e.index < output_claims.length then
      .ok (output_claims.get ⟨e.index, hc⟩)
    else .errFail

/-- The wire loop of NodeCtx::claims_for_node, processing output wires in
order as the Result collect does: for each wire, assert that it has exactly
one downstream edge (a violation panics), then resolve edges[0] (headD:
the default is unreachable once the length-1 assert has passed). -/
def claimsForNodeGo {R : Type} (claims_by_node : List (ℕ × List (Claim R)))
    (output_claims : List (Claim R)) : List OutputWire → CResult (List (Claim R))
  | [] => .ok []
  | w :: rest =>
    if w.edges.length = 1 then
      match resolveEdge claims_by_node output_claims (w.edges.headD ⟨none, 0⟩) with
      | .assertFail => .assertFail
      | .errFail => .errFail
      | .ok c =>
        match claimsForNodeGo claims_by_node output_claims rest with
        | .assertFail => .assertFail
        | .errFail => .errFail
        | .ok cs => .ok (c :: cs)
    else .assertFail

/-- NodeCtx::claims_for_node from provable/mod.rs. -/
def NodeConn.claims_for_node {R : Type} (ctx : NodeConn)
    (claims_by_node : List (ℕ × List (Claim R))) (output_claims : List (Claim R)) :
    CResult (List (Claim R)) :=
  claimsForNodeGo claims_by_node output_claims ctx.outputs

/-- The claim referenced by one edge, with defaults where the Rust code
would fail; only used under hypotheses that make the defaults unreachable. -/
def referencedClaim {R : Type} [Inhabited R] (claims_by_node : List (ℕ × List (Claim R)))
    (output_claims : List (Claim R)) (e : Edge) : Claim R :=
  match e.node with
  | some id => ((claims_by_node.lookup id).getD []).getD e.index ⟨[], default⟩
  | none => output_claims.getD e.index ⟨[], default⟩

/-- Whether an edge can be resolved: for an edge into a node, the claims
map holds that node with enough claims; for a model edge, the index is
within the output claims. -/
def edgeValid {R : Type} (claims_by_node : List (ℕ × List (Claim R)))
    (output_claims : List (Claim R)) (e : Edge) : Bool :=
  match e.node with
  | some id =>
    match claims_by_node.lookup id with
    | some cs => decide (e.index < cs.length)
    | none => false
  | none => decide (e.index < output_claims.length)

/-- Insertion into the BTreeMap of input_claims, modelled as a list sorted
by strictly increasing key: an existing binding for the same key is
replaced (BTreeMap::insert overwrites). -/
def btInsert {α : Type} (k : ℕ) (v : α) : List (ℕ × α) → List (ℕ × α)
  | [] => [(k, v)]
  | (k', v') :: rest =>
    if k < k' then (k, v) :: (k', v') :: rest
    else if k = k' then (k, v) :: rest
    else (k', v') :: btInsert k v rest

/-- The inner loop of NodeCtx::input_claims over the enumerated inputs of
one node: an input edge with node = none names a model-input slot; the
claim stored for it is claims_by_node[node_id][i], where a missing map
entry is an anyhow error and an out-of-range position i is an indexing
panic. -/
def scanNode {R : Type} (claims_by_node : List (ℕ × List (Claim R))) (node_id : ℕ) :
    List (ℕ × Edge) → List (ℕ × Claim R) → CResult (List (ℕ × Claim R))
  | [], m => .ok m
  | (i, e) :: rest, m =>
    match e.node with
    | some _ => scanNode claims_by_node node_id rest m
    | none =>
      match claims_by_node.lookup node_id with
      | none => .errFail
      | some cs =>
        if h : i < cs.length then
          scanNode claims_by_node node_id rest (btInsert e.index (cs.get ⟨i, h⟩) m)
        else .assertFail

/-- The outer loop of NodeCtx::input_claims over the supplied nodes, in
iteration order. -/
def scanInputs {R : Type} (claims_by_node : List (ℕ × List (Claim R))) :
    List (ℕ × NodeConn) → List (ℕ × Claim R) → CResult (List (ℕ × Claim R))
  | [], m => .ok m
  | (node_id, ctx) :: rest, m =>
    match scanNode claims_by_node node_id ctx.inputs.enum m with
    | .assertFail => .assertFail
    | .errFail => .errFail
    | .ok m' => scanInputs claims_by_node rest m'

/-- NodeCtx::input_claims from provable/mod.rs: scan all nodes, then check
that at least one model-input slot was found and that the smallest and
largest keys are 0 and len - 1, and return the claims in ascending key
order (the BTreeMap iteration order). -/
def input_claims {R : Type} [Inhabited R] (nodes : List (ℕ × NodeConn))
    (claims_by_node : List (ℕ × List (Claim R))) : CResult (List (Claim R)) :=
  match scanInputs claims_by_node nodes [] with
  | .assertFail => .assertFail
  | .errFail => .errFail
  | .ok m =>
    if m.length < 1 then .errFail
    else
      let min_index := (m.headD (0, ⟨[], default⟩)).1
      let max_index := (m.getLastD (0, ⟨[], default⟩)).1
      if min_index = 0 ∧ max_index = m.length - 1 then .ok (m.map (·.2))
      else .errFail

/-- The model-input indices referenced by the nodes' input edges: the index
of every input edge whose node is none, in scan order. -/
def modelInputIndices (nodes : List (ℕ × NodeConn)) : List ℕ :=
  nodes.flatMap fun p => (p.2.inputs.filter fun e => e.node.isNone).map (·.index)

/-- Whether the claims map is populated for one node: every model-input
edge position of the node resolves to an existing claim. -/
def nodePopulated {R : Type} (claims_by_node : List (ℕ × List (Claim R)))
    (node_id : ℕ) (inputs : List Edge) : Bool :=
  inputs.enum.all fun ie =>
    ie.2.node.isSome ||
      match claims_by_node.lookup node_id with
      | some cs => decide (ie.1 < cs.length)
      | none => false

/-- Base-B Horner evaluation of a list of ring elements: the value of the
fold in recombine_claims over the reversed chunk claims. -/
def weighted_sum (B : ℕ) {R : Type} [CommRing R] : List R → R
  | [] => 0
  | c :: rest => c + (B : R) * weighted_sum B rest

/-!  Theorems.  General-purpose lemmas come first, then one theorem per
claim (with its witness or counterexample where required). -/

theorem ceil_log2_fuel_eq_clog :
    ∀ (fuel n : ℕ), n ≤ fuel → ceil_log2_fuel fuel n = Nat.clog 2 n := by
  intro fuel
  induction fuel with
  | zero =>
    intro n hn
    have : n = 0 := by omega
    subst this
    simp [ceil_log2_fuel]
  | succ fuel ih =>
    intro n hn
    rw [ceil_log2_fuel]
    by_cases h1 : n ≤ 1
    · rw [if_pos h1]
      rcases Nat.le_one_iff_eq_zero_or_eq_one.mp h1 with rfl | rfl
      · simp
      · simp [Nat.clog_one_right]
    · rw [if_neg h1, Nat.clog]
      rw [dif_pos ⟨by norm_num, by omega⟩]
      have harg : (n + 2 - 1) / 2 = (n + 1) / 2 := by norm_num
      rw [harg]
      congr 1
      exact ih ((n + 1) / 2) (by omega)

theorem ceil_log2_eq_clog (n : ℕ) : ceil_log2 n = Nat.clog 2 n :=
  ceil_log2_fuel_eq_clog n n le_rfl

theorem usize_ilog2_fuel_eq_log2 :
    ∀ (fuel n : ℕ), n ≤ fuel → usize_ilog2_fuel fuel n = Nat.log2 n := by
  intro fuel
  induction fuel with
  | zero =>
    intro n hn
    have : n = 0 := by omega
    subst this
    simp [usize_ilog2_fuel, Nat.log2]
  | succ fuel ih =>
    intro n hn
    rw [usize_ilog2_fuel, Nat.log2]
    by_cases h1 : n < 2
    · rw [if_pos h1, if_neg (by omega)]
    · rw [if_neg h1, if_pos (by omega)]
      congr 1
      exact ih (n / 2) (by omega)

theorem usize_ilog2_eq_log2 (n : ℕ) : usize_ilog2 n = Nat.log2 n :=
  usize_ilog2_fuel_eq_log2 n n le_rfl

theorem getD_range_map {α : Type} (n : ℕ) (f : ℕ → α) (i : ℕ) (hi : i < n) (d : α) :
    ((List.range n).map f).getD i d = f i := by
  have h : i < ((List.range n).map f).length := by simpa using hi
  rw [List.getD_eq_getElem _ _ h]
  simp

theorem map_getD_range {α : Type} (l : List α) (d : α) :
    (List.range l.length).map (fun j => l.getD j d) = l := by
  apply List.ext_getElem
  · simp
  · intro i h1 h2
    simp [List.getD, List.getElem?_eq_getElem h2]

theorem intCast_land_ofNat (m n : ℕ) :
    Int.land (m : ℤ) (n : ℤ) = ((m &&& n : ℕ) : ℤ) := by
  simp [Int.land]

theorem intCast_shiftRight (m b : ℕ) :
    ((m : ℤ) >>> b) = ((m >>> b : ℕ) : ℤ) := by
  simp [Int.shiftRight_eq_div_pow, Nat.shiftRight_eq_div_pow]

theorem enumFrom_pow_foldl (B : ℕ) {R : Type} [CommRing R] (l : List R) :
    ∀ (k : ℕ) (a : R),
      (List.enumFrom k l).foldl (fun acc p => acc + ((B ^ p.1 : ℕ) : R) * p.2) a
        = a + ((B ^ k : ℕ) : R) * weighted_sum B l := by
  induction l with
  | nil => intro k a; simp [weighted_sum]
  | cons c rest ih =>
    intro k a
    simp only [List.enumFrom, List.foldl_cons, ih (k + 1), weighted_sum]
    push_cast
    ring

theorem recombine_claims_cons {R : Type} [CommRing R] (rq : Requant) (c0 : R)
    (rest : List R) :
    rq.recombine_claims (c0 :: rest)
      = ((2 ^ rq.right_shift : ℕ) : R) *
            (c0 + ((rq.range <<< 1) >>> rq.right_shift : ℕ) - ((rq.after_range >>> 1 : ℕ) : R))
          + weighted_sum (next_power_of_two rq.after_range) rest.reverse
          - ((rq.range <<< 1 : ℕ) : R) := by
  simp only [Requant.recombine_claims, List.headD_cons, List.drop_one, List.tail_cons,
    List.enum]
  rw [enumFrom_pow_foldl]
  simp

theorem weighted_sum_intCast (B : ℕ) {R : Type} [CommRing R] (l : List ℤ) :
    weighted_sum B (l.map (Int.cast : ℤ → R)) = ((weighted_sum B l : ℤ) : R) := by
  induction l with
  | nil => simp [weighted_sum]
  | cons c rest ih =>
    simp only [List.map_cons, weighted_sum, ih]
    push_cast
    ring

theorem lookupChunksRev_length (rq : Requant) :
    ∀ (m : ℕ) (r : ℤ), (rq.lookupChunksRev m r).length = m := by
  intro m
  induction m with
  | zero => intro r; rfl
  | succ m ih => intro r; simp [Requant.lookupChunksRev, ih]

theorem prepChunksRev_length (rq : Requant) :
    ∀ (m : ℕ) (r : ℤ), (rq.prepChunksRev m r).length = m := by
  intro m
  induction m with
  | zero => intro r; rfl
  | succ m ih => intro r; simp [Requant.prepChunksRev, ih]

theorem lookupRow_length (rq : Requant) (e : ℤ) :
    (rq.lookupRow e).length = rq.num_columns := by
  have h2 : 2 ≤ rq.num_columns := Nat.le_add_left 2 _
  simp [Requant.lookupRow, lookupChunksRev_length]
  omega

theorem prepRow_length (rq : Requant) (e : ℤ) :
    (rq.prepRow e).length = rq.num_columns := by
  have h2 : 2 ≤ rq.num_columns := Nat.le_add_left 2 _
  simp [Requant.prepRow, prepChunksRev_length]
  omega

theorem clog_after_range (rq : Requant) (b : ℕ) (hB : rq.after_range = 2 ^ b) :
    Nat.clog 2 rq.after_range = b := by
  rw [hB]
  exact Nat.clog_pow 2 b (by norm_num)

theorem next_power_of_two_after_range (rq : Requant) (b : ℕ)
    (hB : rq.after_range = 2 ^ b) : next_power_of_two rq.after_range = 2 ^ b := by
  rw [next_power_of_two, ceil_log2_eq_clog, clog_after_range rq b hB]

theorem lookupChunksRev_sum (rq : Requant) (b : ℕ) (hB : rq.after_range = 2 ^ b) :
    ∀ (m : ℕ) (r : ℤ), 0 ≤ r → r < 2 ^ (b * m) →
      weighted_sum (next_power_of_two rq.after_range) (rq.lookupChunksRev m r) = r := by
  intro m
  induction m with
  | zero =>
    intro r h0 h1
    have : r = 0 := by
      have : (2 : ℤ) ^ (b * 0) = 1 := by norm_num
      omega
    simp [Requant.lookupChunksRev, weighted_sum, this]
  | succ m ih =>
    intro r h0 h1
    obtain ⟨n, rfl⟩ : ∃ n : ℕ, (n : ℤ) = r := ⟨r.toNat, Int.toNat_of_nonneg h0⟩
    have hmask : ((next_power_of_two rq.after_range : ℕ) - 1 : ℤ) = ((2 ^ b - 1 : ℕ) : ℤ) := by
      rw [next_power_of_two_after_range rq b hB]
      push_cast [Nat.one_le_two_pow]
      ring
    have hchunk : Int.land (n : ℤ) ((next_power_of_two rq.after_range : ℕ) - 1 : ℤ)
        = ((n % 2 ^ b : ℕ) : ℤ) := by
      rw [hmask, intCast_land_ofNat, Nat.and_pow_two_sub_one_eq_mod]
    have hshift : ((n : ℤ) >>> ceil_log2 rq.after_range) = ((n / 2 ^ b : ℕ) : ℤ) := by
      rw [ceil_log2_eq_clog, clog_after_range rq b hB, intCast_shiftRight,
        Nat.shiftRight_eq_div_pow]
    have hn : n < 2 ^ (b * (m + 1)) := by exact_mod_cast h1
    have hdivlt : n / 2 ^ b < 2 ^ (b * m) := by
      rw [Nat.div_lt_iff_lt_mul (Nat.pos_pow_of_pos b (by norm_num))]
      calc n < 2 ^ (b * (m + 1)) := hn
        _ = 2 ^ (b * m) * 2 ^ b := by rw [← pow_add]; ring_nf
    have ihd := ih ((n / 2 ^ b : ℕ) : ℤ) (by positivity) (by exact_mod_cast hdivlt)
    simp only [Requant.lookupChunksRev, weighted_sum, hchunk, hshift, ihd]
    push_cast
    have := Nat.mod_add_div n (2 ^ b)
    push_cast at this
    rw [next_power_of_two_after_range rq b hB]
    push_cast
    linarith

theorem right_shift_le_chunk_bits (rq : Requant) (b : ℕ) (hb : 1 ≤ b)
    (hB : rq.after_range = 2 ^ b) :
    rq.right_shift ≤ b * (rq.num_columns - 1) := by
  have hcl : ceil_log2 rq.after_range = b := by
    rw [ceil_log2_eq_clog, clog_after_range rq b hB]
  have hK : rq.num_columns - 1 = (rq.right_shift - 1) / b + 1 := by
    simp [Requant.num_columns, hcl]
  rw [hK, Nat.mul_add, Nat.mul_one]
  have h1 := Nat.div_add_mod (rq.right_shift - 1) b
  have h2 : (rq.right_shift - 1) % b < b := Nat.mod_lt _ (by omega)
  generalize hX : b * ((rq.right_shift - 1) / b) = X at h1 ⊢
  omega

theorem lookupRow_recombine (rq : Requant) (b : ℕ) (hb : 1 ≤ b)
    (hB : rq.after_range = 2 ^ b) (e : ℤ) :
    rq.recombine_claims (rq.lookupRow e) = e := by
  simp only [Requant.lookupRow]
  rw [recombine_claims_cons, List.reverse_reverse]
  set pre : ℤ := e + ((rq.range <<< 1 : ℕ) : ℤ) with hpre
  set tmp : ℤ := pre >>> rq.right_shift with htmp
  set r : ℤ := pre - i128_shl tmp rq.right_shift with hrdef
  have htmp_div : tmp = pre / ((2 ^ rq.right_shift : ℕ) : ℤ) := by
    rw [htmp, Int.shiftRight_eq_div_pow]
  have hX : ((2 ^ rq.right_shift : ℕ) : ℤ) = (2 : ℤ) ^ rq.right_shift := by push_cast; rfl
  have hr_mod : r = pre % ((2 : ℤ) ^ rq.right_shift) := by
    rw [hrdef, Int.emod_def, htmp_div, i128_shl, hX]
    ring
  have hr0 : 0 ≤ r := by
    rw [hr_mod]
    exact Int.emod_nonneg pre (by positivity)
  have hrlt : r < (2 : ℤ) ^ rq.right_shift := by
    rw [hr_mod]
    exact Int.emod_lt_of_pos pre (by positivity)
  have hsum : weighted_sum (next_power_of_two rq.after_range)
      (rq.lookupChunksRev (rq.num_columns - 1) r) = r := by
    apply lookupChunksRev_sum rq b hB _ r hr0
    calc r < (2 : ℤ) ^ rq.right_shift := hrlt
      _ ≤ (2 : ℤ) ^ (b * (rq.num_columns - 1)) := by
        apply pow_le_pow_right₀ (by norm_num)
        exact right_shift_le_chunk_bits rq b hb hB
  rw [hsum]
  have hhalf : ((rq.after_range : ℤ) >>> 1) = ((rq.after_range >>> 1 : ℕ) : ℤ) :=
    intCast_shiftRight rq.after_range 1
  have hdecomp : ((2 ^ rq.right_shift : ℕ) : ℤ) * tmp + r = pre := by
    have := Int.emod_add_ediv pre ((2 : ℤ) ^ rq.right_shift)
    rw [htmp_div, hX, ← hr_mod] at *
    linarith
  rw [hhalf]
  have : tmp - ((rq.range <<< 1) >>> rq.right_shift : ℕ) + ((rq.after_range >>> 1 : ℕ) : ℤ)
      + ((rq.range <<< 1) >>> rq.right_shift : ℕ) - ((rq.after_range >>> 1 : ℕ) : ℤ) = tmp := by
    ring
  rw [this]
  rw [hpre] at hdecomp
  linarith

theorem lookup_witness_read_at (rq : Requant) (input : List ℤ) (i : ℕ)
    (hi : i < input.length) :
    ((rq.lookup_witness input).2).map (fun col => col.getD i 0)
      = rq.lookupRow (input.get ⟨i, hi⟩) := by
  have hle : input.length ≤ 2 ^ ceil_log2 input.length := by
    rw [ceil_log2_eq_clog]
    exact Nat.le_pow_clog (by norm_num) _
  have hi2 : i < 2 ^ ceil_log2 input.length := lt_of_lt_of_le hi hle
  have hget : input.get? i = some (input.get ⟨i, hi⟩) := List.get?_eq_get hi
  simp only [Requant.lookup_witness, List.map_map]
  have hcell : ∀ j : ℕ,
      ((List.range (2 ^ ceil_log2 input.length)).map fun k =>
        match input.get? k with
        | some v => (rq.lookupRow v).getD j 0
        | none => 0).getD i 0 = (rq.lookupRow (input.get ⟨i, hi⟩)).getD j 0 := by
    intro j
    rw [getD_range_map _ _ i hi2, hget]
  calc (List.range rq.num_columns).map
        ((fun col => col.getD i 0) ∘ fun j =>
          (List.range (2 ^ ceil_log2 input.length)).map fun k =>
            match input.get? k with
            | some v => (rq.lookupRow v).getD j 0
            | none => 0)
      = (List.range rq.num_columns).map
          (fun j => (rq.lookupRow (input.get ⟨i, hi⟩)).getD j 0) := by
        apply List.map_congr_left
        intro j _
        exact hcell j
    _ = rq.lookupRow (input.get ⟨i, hi⟩) := by
        rw [← lookupRow_length rq (input.get ⟨i, hi⟩)]
        exact map_getD_range _ 0

theorem prep_for_requantize_read_at (rq : Requant) (input : List ℤ) (i : ℕ)
    (hi : i < input.length) :
    (rq.prep_for_requantize input).map (fun col => col.getD i 0)
      = rq.prepRow (input.get ⟨i, hi⟩) := by
  have hle : input.length ≤ 2 ^ ceil_log2 input.length := by
    rw [ceil_log2_eq_clog]
    exact Nat.le_pow_clog (by norm_num) _
  have hi2 : i < 2 ^ ceil_log2 input.length := lt_of_lt_of_le hi hle
  have hget : input.get? i = some (input.get ⟨i, hi⟩) := List.get?_eq_get hi
  simp only [Requant.prep_for_requantize, List.map_map]
  calc (List.range rq.num_columns).map
        ((fun col => col.getD i 0) ∘ fun j =>
          (List.range (2 ^ ceil_log2 input.length)).map fun k =>
            match input.get? k with
            | some v => (rq.prepRow v).getD j 0
            | none => 0)
      = (List.range rq.num_columns).map
          (fun j => (rq.prepRow (input.get ⟨i, hi⟩)).getD j 0) := by
        apply List.map_congr_left
        intro j _
        rw [Function.comp_apply, getD_range_map _ _ i hi2, hget]
    _ = rq.prepRow (input.get ⟨i, hi⟩) := by
        rw [← prepRow_length rq (input.get ⟨i, hi⟩)]
        exact map_getD_range _ 0

theorem recombine_claims_intCast {R : Type} [CommRing R] (rq : Requant)
    (l : List ℤ) :
    rq.recombine_claims (l.map (Int.cast : ℤ → R))
      = ((rq.recombine_claims l : ℤ) : R) := by
  cases l with
  | nil =>
    simp only [List.map_nil, Requant.recombine_claims, List.headD_nil, List.drop_nil,
      List.reverse_nil, List.enum_nil, List.foldl_nil]
    push_cast
    ring
  | cons c rest =>
    rw [List.map_cons, recombine_claims_cons, recombine_claims_cons, ← List.map_reverse,
      weighted_sum_intCast]
    push_cast
    ring

/-- C1.  For every Requant with multiplier unset, after_range a power of two
(a valid power, at least 2, so that the Rust division by
ceil_log2(after_range) is meaningful) and right_shift at least 1 (so that
the usize subtraction right_shift - 1 does not wrap), and every input
element e with e + (range << 1) >= 0, applying recombine_claims to the
K-column lookup decomposition of e (the columns produced by lookup_witness,
read at e's index) yields exactly the lift of e into the field, here an
arbitrary commutative ring receiving the integers through the canonical
cast. -/
theorem recombine_lookup_witness_exact {R : Type} [CommRing R] (rq : Requant)
    (b : ℕ) (hm : rq.multiplier = none) (hb : 1 ≤ b)
    (hB : rq.after_range = 2 ^ b) (hrs : 1 ≤ rq.right_shift)
    (input : List ℤ) (i : ℕ) (hi : i < input.length)
    (he : 0 ≤ input.get ⟨i, hi⟩ + ((rq.range <<< 1 : ℕ) : ℤ)) :
    rq.recombine_claims
        (((rq.lookup_witness input).2).map fun col => ((col.getD i 0 : ℤ) : R))
      = ((input.get ⟨i, hi⟩ : ℤ) : R) := by
  have hread := lookup_witness_read_at rq input i hi
  have : ((rq.lookup_witness input).2).map (fun col => ((col.getD i 0 : ℤ) : R))
      = (((rq.lookup_witness input).2).map (fun col => col.getD i 0)).map
          (Int.cast : ℤ → R) := by
    rw [List.map_map]
    rfl
  rw [this, hread, recombine_claims_intCast,
    lookupRow_recombine rq b hb hB (input.get ⟨i, hi⟩)]

/-- Witness for C1 at the spec's S2 scenario: shift 8, range 128,
after_range 256, input element -32 at index 0. -/
theorem recombine_lookup_witness_exact_witness :
    (Requant.multiplier ⟨8, 128, 256, none⟩ = none) ∧
      (0 : ℤ) ≤ (-32 : ℤ) + (((Requant.range ⟨8, 128, 256, none⟩) <<< 1 : ℕ) : ℤ) ∧
      Requant.recombine_claims (R := ℤ) ⟨8, 128, 256, none⟩
          (((Requant.lookup_witness ⟨8, 128, 256, none⟩ [-32]).2).map
            fun col => ((col.getD 0 0 : ℤ) : ℤ))
        = ((-32 : ℤ) : ℤ) := by
  refine ⟨rfl, by decide, ?_⟩
  have h := recombine_lookup_witness_exact (R := ℤ) ⟨8, 128, 256, none⟩ 8 rfl
    (by decide) (by decide) (by decide) [-32] 0 (by decide) (by decide)
  exact h

theorem ilog2_after_range (rq : Requant) (b : ℕ) (hB : rq.after_range = 2 ^ b) :
    usize_ilog2 rq.after_range = b := by
  rw [usize_ilog2_eq_log2, hB, Nat.log2_eq_log_two]
  exact Nat.log_pow (by norm_num) b

theorem chunks_offset_relation (rq : Requant) (b : ℕ)
    (hB : rq.after_range = 2 ^ b) :
    ∀ (m : ℕ) (r : ℤ),
      rq.lookupChunksRev m r
        = (rq.prepChunksRev m r).map (fun x => x + ((rq.after_range : ℤ) >>> 1)) := by
  intro m
  induction m with
  | zero => intro r; rfl
  | succ m ih =>
    intro r
    have hmask : ((next_power_of_two rq.after_range : ℕ) - 1 : ℤ)
        = (rq.after_range : ℤ) - 1 := by
      rw [next_power_of_two_after_range rq b hB, hB]
    have hshift : ceil_log2 rq.after_range = usize_ilog2 rq.after_range := by
      rw [ceil_log2_eq_clog, clog_after_range rq b hB, ilog2_after_range rq b hB]
    simp only [Requant.lookupChunksRev, Requant.prepChunksRev, List.map_cons, hmask,
      hshift, ih]
    congr 1
    ring

theorem row_offset_relation (rq : Requant) (b : ℕ) (hB : rq.after_range = 2 ^ b)
    (e : ℤ) :
    rq.lookupRow e = (rq.prepRow e).map (fun x => x + ((rq.after_range : ℤ) >>> 1)) := by
  simp only [Requant.lookupRow, Requant.prepRow, List.map_cons, ← List.map_reverse,
    chunks_offset_relation rq b hB]

/-- C4 counterexample.  The claim says columns 1..K-1 of lookup_witness and
prep_for_requantize are identical; at shift 8, range 128, after_range 256
and input [0], column 1 of lookup_witness is [0] while column 1 of
prep_for_requantize is [-128]. -/
theorem prep_lookup_chunk_columns_counterexample :
    ¬ ((Requant.lookup_witness ⟨8, 128, 256, none⟩ [0]).2.getD 1 []
        = (Requant.prep_for_requantize ⟨8, 128, 256, none⟩ [0]).getD 1 []) := by
  decide

theorem intCast_shiftRight_one (m : ℕ) :
    ((m : ℤ) >>> (1 : ℤ)) = ((m / 2 : ℕ) : ℤ) := by
  have h1 : (1 : ℤ) = ((1 : ℕ) : ℤ) := rfl
  rw [h1, Int.shiftRight_coe_nat, Nat.shiftRight_eq_div_pow]

theorem getD_col_comm (cols : List (List ℤ)) (i j : ℕ) (hj : j < cols.length) :
    (cols.getD j []).getD i 0 = (cols.map (fun col => col.getD i 0)).getD j 0 := by
  have hj2 : j < (cols.map (fun col => col.getD i 0)).length := by simpa using hj
  rw [List.getD_eq_getElem _ _ hj, List.getD_eq_getElem _ _ hj2, List.getElem_map]

/-- C4 amended.  For every valid Requant (after_range a power of two, at
least 2) and every input, lookup_witness and prep_for_requantize produce
the same K columns up to a uniform additive shift of after_range / 2 on
EVERY column at every data index (not only on the output column: the
discarded-chunk columns differ by the same shift, because
prep_for_requantize subtracts after_range / 2 from each chunk); the
padding cells at indices at or beyond the input length agree (both zero). -/
theorem prep_lookup_offset_relation (rq : Requant) (b : ℕ) (hb : 1 ≤ b)
    (hB : rq.after_range = 2 ^ b) (input : List ℤ) :
    (∀ i, i < input.length → ∀ j, j < rq.num_columns →
        ((rq.lookup_witness input).2.getD j []).getD i 0
          = ((rq.prep_for_requantize input).getD j []).getD i 0
              + ((rq.after_range / 2 : ℕ) : ℤ))
      ∧ (∀ i, input.length ≤ i → ∀ j,
          ((rq.lookup_witness input).2.getD j []).getD i 0
            = ((rq.prep_for_requantize input).getD j []).getD i 0) := by
  have hhalf : ((rq.after_range : ℤ) >>> 1) = ((rq.after_range / 2 : ℕ) : ℤ) :=
    intCast_shiftRight_one rq.after_range
  constructor
  · intro i hi j hj
    have hjl : j < ((rq.lookup_witness input).2).length := by
      simpa [Requant.lookup_witness] using hj
    have hjp : j < (rq.prep_for_requantize input).length := by
      simpa [Requant.prep_for_requantize] using hj
    rw [getD_col_comm _ i j hjl, getD_col_comm _ i j hjp,
      lookup_witness_read_at rq input i hi, prep_for_requantize_read_at rq input i hi,
      row_offset_relation rq b hB, ← hhalf]
    have hjrow : j < (rq.prepRow (input.get ⟨i, hi⟩)).length := by
      rw [prepRow_length]; exact hj
    have hjrow2 : j < ((rq.prepRow (input.get ⟨i, hi⟩)).map
        (fun x => x + ((rq.after_range : ℤ) >>> 1))).length := by
      simpa using hjrow
    rw [List.getD_eq_getElem _ _ hjrow2, List.getD_eq_getElem _ _ hjrow, List.getElem_map]
  · intro i hi j
    by_cases hj : j < rq.num_columns
    · have hcell : ∀ row : ℤ → List ℤ,
          (((List.range rq.num_columns).map fun j' =>
            (List.range (2 ^ ceil_log2 input.length)).map fun k =>
              match input.get? k with
              | some v => (row v).getD j' 0
              | none => 0).getD j []).getD i 0 = 0 := by
        intro row
        rw [getD_range_map _ _ j hj]
        by_cases hik : i < 2 ^ ceil_log2 input.length
        · rw [getD_range_map _ _ i hik, List.get?_eq_none.mpr hi]
        · rw [List.getD_eq_default]
          simpa using hik
      have h1 : ((rq.lookup_witness input).2.getD j []).getD i 0 = 0 := hcell rq.lookupRow
      have h2 : ((rq.prep_for_requantize input).getD j []).getD i 0 = 0 := hcell rq.prepRow
      rw [h1, h2]
    · have h1 : (rq.lookup_witness input).2.getD j [] = [] := by
        apply List.getD_eq_default
        simpa [Requant.lookup_witness] using hj
      have h2 : (rq.prep_for_requantize input).getD j [] = [] := by
        apply List.getD_eq_default
        simpa [Requant.prep_for_requantize] using hj
      rw [h1, h2]

/-- Witness for C4 amended at shift 8, range 128, after_range 256,
input [0, -32]. -/
theorem prep_lookup_offset_relation_witness :
    (Requant.after_range ⟨8, 128, 256, none⟩ = 2 ^ 8) ∧
      (∀ i, i < ([0, -32] : List ℤ).length → ∀ j, j < Requant.num_columns ⟨8, 128, 256, none⟩ →
          ((Requant.lookup_witness ⟨8, 128, 256, none⟩ [0, -32]).2.getD j []).getD i 0
            = ((Requant.prep_for_requantize ⟨8, 128, 256, none⟩ [0, -32]).getD j []).getD i 0
                + (((Requant.after_range ⟨8, 128, 256, none⟩) / 2 : ℕ) : ℤ))
        ∧ (∀ i, ([0, -32] : List ℤ).length ≤ i → ∀ j,
            ((Requant.lookup_witness ⟨8, 128, 256, none⟩ [0, -32]).2.getD j []).getD i 0
              = ((Requant.prep_for_requantize ⟨8, 128, 256, none⟩ [0, -32]).getD j []).getD i 0) := by
  exact ⟨by decide, prep_lookup_offset_relation ⟨8, 128, 256, none⟩ 8 (by decide)
    (by decide) [0, -32]⟩

/-- C2 counterexample.  The claim says that for right_shift = 10 and
after_range = 256 the column and LogUp instance count is 4; the code
computes (10 - 1) / 8 + 2 = 3 with usize floor division. -/
theorem num_columns_counterexample :
    ¬ ((Requant.lookup_witness ⟨10, 1024, 256, none⟩ [5]).2.length = 4
        ∧ RequantCtx.verify_num_instances ⟨⟨10, 1024, 256, none⟩, 0, 0⟩ = 4) := by
  decide

/-- C2 amended.  The number of decomposition columns allocated by
prep_for_requantize and lookup_witness and the number of LogUp instances
used by the verifier all equal K = floor((right_shift - 1) / b) + 2 with
b = ceil_log2(after_range); for right_shift at least 1 and b at least 1
this is ceil(right_shift / b) + 1; in particular for right_shift = 10 and
after_range = 256 the count is 3 (not 4). -/
theorem num_columns_formula (rq : Requant) (pid nv : ℕ) (input : List ℤ)
    (hrs : 1 ≤ rq.right_shift) (hb : 1 ≤ ceil_log2 rq.after_range) :
    (rq.lookup_witness input).2.length
        = (rq.right_shift - 1) / ceil_log2 rq.after_range + 2
      ∧ (rq.prep_for_requantize input).length
          = (rq.right_shift - 1) / ceil_log2 rq.after_range + 2
      ∧ (RequantCtx.mk rq pid nv).verify_num_instances
          = (rq.right_shift - 1) / ceil_log2 rq.after_range + 2
      ∧ (rq.right_shift - 1) / ceil_log2 rq.after_range + 2
          = (rq.right_shift + ceil_log2 rq.after_range - 1) / ceil_log2 rq.after_range + 1
      ∧ Requant.num_columns ⟨10, 1024, 256, none⟩ = 3 := by
  refine ⟨?_, ?_, ?_, ?_, by decide⟩
  · simp [Requant.lookup_witness, Requant.num_columns]
  · simp [Requant.prep_for_requantize, Requant.num_columns]
  · rfl
  · have h2 : rq.right_shift + ceil_log2 rq.after_range - 1
        = (rq.right_shift - 1) + ceil_log2 rq.after_range := by omega
    rw [h2, Nat.add_div_right _ (by omega)]

/-- Witness for C2 amended at right_shift 10, after_range 256, input [5]. -/
theorem num_columns_formula_witness :
    (1 ≤ (10 : ℕ) ∧ 1 ≤ ceil_log2 256) ∧
      ((Requant.lookup_witness ⟨10, 1024, 256, none⟩ [5]).2.length
          = ((10 : ℕ) - 1) / ceil_log2 256 + 2
        ∧ (Requant.prep_for_requantize ⟨10, 1024, 256, none⟩ [5]).length
            = ((10 : ℕ) - 1) / ceil_log2 256 + 2
        ∧ (RequantCtx.mk ⟨10, 1024, 256, none⟩ 0 0).verify_num_instances
            = ((10 : ℕ) - 1) / ceil_log2 256 + 2
        ∧ ((10 : ℕ) - 1) / ceil_log2 256 + 2
            = ((10 : ℕ) + ceil_log2 256 - 1) / ceil_log2 256 + 1
        ∧ Requant.num_columns ⟨10, 1024, 256, none⟩ = 3) := by
  exact ⟨⟨by decide, by decide⟩,
    num_columns_formula ⟨10, 1024, 256, none⟩ 0 0 [5] (by decide) (by decide)⟩

/-- C3 counterexample.  The claim says the corrected claim subtracts
B / 2 with B = after_range of the requant being proven; the code subtracts
the global quantization RANGE / 2 instead.  With RANGE = 256 (the spec's
quantized domain, scenario S1) and a Requant whose after_range is 512, the
prover's second same-poly claim has evaluation 0 - 128, not
0 - 512 / 2 = -256. -/
theorem corrected_claim_counterexample :
    ¬ ((Requant.prove_step_model (R := ℤ) 256 ⟨8, 128, 512, none⟩ ⟨[], 0⟩
          [⟨[], 0⟩]).map Prod.fst
        = some [⟨[], 0⟩, ⟨[], (0 : ℤ) - ((512 / 2 : ℕ) : ℤ)⟩]) := by
  decide

/-- C3 amended.  In both the requant prover and the requant verifier, the
corrected claim added second to the same-polynomial accumulator has
evaluation c[0] - RANGE / 2 at the same point as the first LogUp claim,
where RANGE is the global quantization constant; this equals
c[0] - after_range / 2 exactly when after_range = RANGE, which holds for
every requant built by Requant::new. -/
theorem corrected_claim_eval {R : Type} [CommRing R] (RANGE : ℕ) (rq : Requant)
    (pid nv : ℕ) (last : Claim R) (cs : List (Claim R)) (c0 : Claim R)
    (hR : rq.after_range = RANGE) (hc : cs.head? = some c0) :
    (rq.prove_step_model RANGE last cs).map Prod.fst
        = some [last, ⟨c0.point, c0.eval - ((rq.after_range / 2 : ℕ) : R)⟩]
      ∧ ((RequantCtx.mk rq pid nv).verify_requant_model RANGE last cs).map Prod.fst
          = some [last, ⟨c0.point, c0.eval - ((rq.after_range / 2 : ℕ) : R)⟩] := by
  cases cs with
  | nil => simp at hc
  | cons c rest =>
    have hc0 : c = c0 := by simpa using hc
    subst hc0
    subst hR
    constructor
    · simp [Requant.prove_step_model]
    · simp [RequantCtx.verify_requant_model]

/-- Witness for C3 amended with RANGE 256, the S1 requant, one LogUp claim. -/
theorem corrected_claim_eval_witness :
    (Requant.after_range ⟨8, 128, 256, none⟩ = 256
        ∧ ([⟨[1], 5⟩] : List (Claim ℤ)).head? = some ⟨[1], 5⟩) ∧
      ((Requant.prove_step_model (R := ℤ) 256 ⟨8, 128, 256, none⟩ ⟨[1], 7⟩
            [⟨[1], 5⟩]).map Prod.fst
          = some [⟨[1], 7⟩, ⟨[1], (5 : ℤ)
              - (((Requant.after_range ⟨8, 128, 256, none⟩) / 2 : ℕ) : ℤ)⟩]
        ∧ ((RequantCtx.mk ⟨8, 128, 256, none⟩ 3 1).verify_requant_model (R := ℤ) 256
              ⟨[1], 7⟩ [⟨[1], 5⟩]).map Prod.fst
            = some [⟨[1], 7⟩, ⟨[1], (5 : ℤ)
                - (((Requant.after_range ⟨8, 128, 256, none⟩) / 2 : ℕ) : ℤ)⟩]) := by
  exact ⟨⟨rfl, rfl⟩, corrected_claim_eval 256 ⟨8, 128, 256, none⟩ 3 1 ⟨[1], 7⟩
    [⟨[1], 5⟩] ⟨[1], 5⟩ rfl rfl⟩

/-- C5.  If prove_step produces a proof and returns the input-side claim
(p, recombine(c)), then verify_requant on the same downstream claim,
assuming the black-box LogUp and same-poly protocols accept and hand the
verifier the same per-column claims c, returns the identical claim: the
same point and the same evaluation (and it also feeds the identical pair
of claims to its same-poly accumulator). -/
theorem prove_verify_round_trip {R : Type} [CommRing R] (RANGE : ℕ)
    (rq : Requant) (pid nv : ℕ) (last : Claim R) (cs : List (Claim R))
    (sp : List (Claim R)) (C : Claim R)
    (h : rq.prove_step_model RANGE last cs = some (sp, C)) :
    (RequantCtx.mk rq pid nv).verify_requant_model RANGE last cs = some (sp, C) := by
  cases cs with
  | nil => simp [Requant.prove_step_model] at h
  | cons c rest =>
    simp only [Requant.prove_step_model, List.head?_cons, Option.some.injEq] at h
    simp only [RequantCtx.verify_requant_model, List.head?_cons, Option.some.injEq]
    exact h

/-- Witness for C5 at the S1 requant with one LogUp claim. -/
theorem prove_verify_round_trip_witness :
    (Requant.prove_step_model (R := ℤ) 256 ⟨8, 128, 256, none⟩ ⟨[1], 7⟩ [⟨[1], 5⟩]
        = some ([⟨[1], 7⟩, ⟨[1], -123⟩], ⟨[1], -31488⟩)) ∧
      (RequantCtx.mk ⟨8, 128, 256, none⟩ 3 1).verify_requant_model (R := ℤ) 256
          ⟨[1], 7⟩ [⟨[1], 5⟩]
        = some ([⟨[1], 7⟩, ⟨[1], -123⟩], ⟨[1], -31488⟩) := by
  refine ⟨by decide, ?_⟩
  exact prove_verify_round_trip 256 ⟨8, 128, 256, none⟩ 3 1 ⟨[1], 7⟩ [⟨[1], 5⟩]
    [⟨[1], 7⟩, ⟨[1], -123⟩] ⟨[1], -31488⟩ (by decide)

theorem opData_formula (qmin qmax : ℤ) (rq : Requant) (hm : rq.multiplier = none) :
    ∀ (l : List ℤ), (∀ e ∈ l, 0 ≤ e + ((rq.range <<< 1 : ℕ) : ℤ)) →
      rq.opData qmin qmax l = some (l.map fun e =>
        ((e + ((rq.range <<< 1 : ℕ) : ℤ)) >>> rq.right_shift)
          - (((rq.range <<< 1 : ℕ) : ℤ) >>> rq.right_shift)) := by
  intro l
  induction l with
  | nil => intro _; rfl
  | cons e rest ih =>
    intro hall
    have he : 0 ≤ e + ((rq.range <<< 1 : ℕ) : ℤ) := hall e (by simp)
    have htail := ih (fun x hx => hall x (by simp [hx]))
    simp only [Requant.opData, Requant.apply, hm]
    rw [if_neg (by omega)]
    by_cases hok : qmin ≤ (e + ((rq.range <<< 1 : ℕ) : ℤ)) >>> rq.right_shift
        - (((rq.range <<< 1 : ℕ) : ℤ) >>> rq.right_shift)
      ∧ (e + ((rq.range <<< 1 : ℕ) : ℤ)) >>> rq.right_shift
        - (((rq.range <<< 1 : ℕ) : ℤ) >>> rq.right_shift) ≤ qmax
    · rw [if_pos hok]
      simp [htail]
    · rw [if_neg hok]
      simp [htail]

/-- C6.  For every Requant with the test-only multiplier unset and every
input tensor whose elements all satisfy e + (range << 1) >= 0, op returns
Ok of a tensor with the same shape whose element at each position is
((e + (range << 1)) >> right_shift) - ((range << 1) >> right_shift);
the result does not depend on the quantized bounds qmin and qmax, so an
out-of-range element is returned as-is (unclamped) and the OutOfRange tag
is invisible to the caller (it only feeds a diagnostic counter). -/
theorem op_formula (qmin qmax : ℤ) (rq : Requant) (t : Tensor)
    (hm : rq.multiplier = none)
    (he : ∀ e ∈ t.data, 0 ≤ e + ((rq.range <<< 1 : ℕ) : ℤ)) :
    rq.op qmin qmax t = some ⟨t.shape, t.data.map fun e =>
      ((e + ((rq.range <<< 1 : ℕ) : ℤ)) >>> rq.right_shift)
        - (((rq.range <<< 1 : ℕ) : ℤ) >>> rq.right_shift)⟩ := by
  rw [Requant.op, opData_formula qmin qmax rq hm t.data he]
  rfl

/-- Witness for C6: an input with one in-range and one out-of-range element;
the out-of-range element 300000 maps to 1171, far outside [-128, 127], and
is returned unclamped. -/
theorem op_formula_witness :
    (Requant.multiplier ⟨8, 128, 256, none⟩ = none
        ∧ ∀ e ∈ ([0, 300000] : List ℤ), 0 ≤ e + (((128 : ℕ) <<< 1 : ℕ) : ℤ)) ∧
      Requant.op (-128) 127 ⟨8, 128, 256, none⟩ ⟨[2], [0, 300000]⟩
        = some ⟨[2], ([0, 300000] : List ℤ).map fun e =>
            ((e + (((Requant.range ⟨8, 128, 256, none⟩) <<< 1 : ℕ) : ℤ))
                >>> Requant.right_shift ⟨8, 128, 256, none⟩)
              - ((((Requant.range ⟨8, 128, 256, none⟩) <<< 1 : ℕ) : ℤ)
                >>> Requant.right_shift ⟨8, 128, 256, none⟩)⟩ := by
  refine ⟨⟨rfl, by decide⟩, ?_⟩
  exact op_formula (-128) 127 ⟨8, 128, 256, none⟩ ⟨[2], [0, 300000]⟩ rfl (by decide)

theorem resolveEdge_valid {R : Type} [Inhabited R]
    (cbn : List (ℕ × List (Claim R))) (oc : List (Claim R)) (e : Edge)
    (hv : edgeValid cbn oc e = true) :
    resolveEdge cbn oc e = .ok (referencedClaim cbn oc e) := by
  cases he : e.node with
  | some id =>
    cases hlk : cbn.lookup id with
    | none => simp [edgeValid, he, hlk] at hv
    | some cs =>
      have hlt : e.index < cs.length := by simpa [edgeValid, he, hlk] using hv
      simp [resolveEdge, referencedClaim, he, hlk, hlt,
        List.getD_eq_getElem cs _ hlt]
  | none =>
    have hlt : e.index < oc.length := by simpa [edgeValid, he] using hv
    simp [resolveEdge, referencedClaim, he, hlt, List.getD_eq_getElem oc _ hlt]

theorem claimsForNodeGo_ok {R : Type} [Inhabited R]
    (cbn : List (ℕ × List (Claim R))) (oc : List (Claim R)) :
    ∀ ws : List OutputWire,
      (∀ w ∈ ws, ∀ e ∈ w.edges, edgeValid cbn oc e = true) →
      (∀ w ∈ ws, w.edges.length = 1) →
      claimsForNodeGo cbn oc ws
        = .ok (ws.map fun w => referencedClaim cbn oc (w.edges.headD ⟨none, 0⟩)) := by
  intro ws
  induction ws with
  | nil => intro _ _; rfl
  | cons w rest ih =>
    intro href h1
    have hw1 : w.edges.length = 1 := h1 w (by simp)
    have hhead : w.edges.headD ⟨none, 0⟩ ∈ w.edges := by
      cases hw : w.edges with
      | nil => rw [hw] at hw1; simp at hw1
      | cons a t => simp [hw]
    have hv := href w (by simp) _ hhead
    rw [claimsForNodeGo, if_pos hw1, resolveEdge_valid cbn oc _ hv,
      ih (fun w' hw' => href w' (by simp [hw'])) (fun w' hw' => h1 w' (by simp [hw']))]
    simp

theorem claimsForNodeGo_assert {R : Type} [Inhabited R]
    (cbn : List (ℕ × List (Claim R))) (oc : List (Claim R)) :
    ∀ ws : List OutputWire,
      (∀ w ∈ ws, ∀ e ∈ w.edges, edgeValid cbn oc e = true) →
      (∃ w ∈ ws, w.edges.length ≠ 1) →
      claimsForNodeGo cbn oc ws = .assertFail := by
  intro ws
  induction ws with
  | nil => intro _ hex; simp at hex
  | cons w rest ih =>
    intro href hex
    by_cases hw1 : w.edges.length = 1
    · have hhead : w.edges.headD ⟨none, 0⟩ ∈ w.edges := by
        cases hw : w.edges with
        | nil => rw [hw] at hw1; simp at hw1
        | cons a t => simp [hw]
      have hv := href w (by simp) _ hhead
      have hrest : ∃ w' ∈ rest, w'.edges.length ≠ 1 := by
        rcases hex with ⟨w', hw', hne⟩
        rcases List.mem_cons.mp hw' with rfl | hmem
        · exact absurd hw1 hne
        · exact ⟨w', hmem, hne⟩
      rw [claimsForNodeGo, if_pos hw1, resolveEdge_valid cbn oc _ hv,
        ih (fun w' hw' => href w' (by simp [hw'])) hrest]
    · rw [claimsForNodeGo, if_neg hw1]

/-- C7.  For any node connectivity in which every downstream edge resolves
(every edge into a node names an entry of the claims map with a claim
vector longer than the edge index, and every model edge has its index
within the output claims): if every output wire has exactly one downstream
edge, claims_for_node returns Ok with exactly one claim per output wire,
namely the referenced claims in wire order; and whenever some output wire
has a number of downstream edges different from one, claims_for_node fails
the length-1 assertion (a panic, distinct from a returned error) rather
than silently picking one edge. -/
theorem claims_for_node_spec {R : Type} [Inhabited R] (ctx : NodeConn)
    (cbn : List (ℕ × List (Claim R))) (oc : List (Claim R))
    (href : ∀ w ∈ ctx.outputs, ∀ e ∈ w.edges, edgeValid cbn oc e = true) :
    ((∀ w ∈ ctx.outputs, w.edges.length = 1) →
        ctx.claims_for_node cbn oc
          = .ok (ctx.outputs.map fun w => referencedClaim cbn oc (w.edges.headD ⟨none, 0⟩)))
      ∧ ((∃ w ∈ ctx.outputs, w.edges.length ≠ 1) →
          ctx.claims_for_node cbn oc = .assertFail) := by
  constructor
  · intro h1
    exact claimsForNodeGo_ok cbn oc ctx.outputs href h1
  · intro hex
    exact claimsForNodeGo_assert cbn oc ctx.outputs href hex

/-- Witness for C7: a two-wire node (one edge into node 2, one model output
edge) succeeds with the referenced claims; a node whose single output wire
has two downstream edges hits the assertion. -/
theorem claims_for_node_spec_witness :
    (NodeConn.claims_for_node (R := ℤ) ⟨[], [⟨[⟨some 2, 0⟩]⟩, ⟨[⟨none, 1⟩]⟩]⟩
          [(2, [⟨[], 9⟩])] [⟨[], 7⟩, ⟨[], 8⟩]
        = .ok ((([⟨[⟨some 2, 0⟩]⟩, ⟨[⟨none, 1⟩]⟩] : List OutputWire)).map fun w =>
            referencedClaim [(2, [⟨[], 9⟩])] [⟨[], 7⟩, ⟨[], 8⟩]
              (w.edges.headD ⟨none, 0⟩)))
      ∧ NodeConn.claims_for_node (R := ℤ) ⟨[], [⟨[⟨some 2, 0⟩, ⟨some 2, 0⟩]⟩]⟩
          [(2, [⟨[], 9⟩])] [] = .assertFail := by
  exact ⟨(claims_for_node_spec ⟨[], [⟨[⟨some 2, 0⟩]⟩, ⟨[⟨none, 1⟩]⟩]⟩
      [(2, [⟨[], 9⟩])] [⟨[], 7⟩, ⟨[], 8⟩] (by decide)).1 (by decide),
    (claims_for_node_spec ⟨[], [⟨[⟨some 2, 0⟩, ⟨some 2, 0⟩]⟩]⟩
      [(2, [⟨[], 9⟩])] [] (by decide)).2 (by decide)⟩

/-- C10.  When two different nodes' input edges reference the same
model-input index (node = none, equal index), input_claims reports no
error: the BTreeMap insert silently overwrites, so the claim returned for
that index is the one from the pair processed last in the supplied
iteration order, and the function returns Ok. -/
theorem input_claims_duplicate_overwrite {R : Type} [Inhabited R] (a b : ℕ)
    (hab : a ≠ b) (c1 c2 : Claim R) :
    input_claims [(a, ⟨[⟨none, 0⟩], []⟩), (b, ⟨[⟨none, 0⟩], []⟩)]
        [(a, [c1]), (b, [c2])] = .ok [c2] := by
  have h1 : ((a : ℕ) == a) = true := beq_self_eq_true a
  have h2 : ((b : ℕ) == a) = false := beq_eq_false_iff_ne.mpr (Ne.symm hab)
  have h3 : ((b : ℕ) == b) = true := beq_self_eq_true b
  simp [input_claims, scanInputs, scanNode, btInsert, List.lookup, List.enum,
    List.enumFrom, h1, h2, h3]

/-- Witness for C10 at nodes 0 and 1. -/
theorem input_claims_duplicate_overwrite_witness :
    input_claims [(0, ⟨[⟨none, 0⟩], []⟩), (1, ⟨[⟨none, 0⟩], []⟩)]
        [(0, [⟨[], (1 : ℤ)⟩]), (1, [⟨[], 2⟩])] = .ok [⟨[], 2⟩] :=
  input_claims_duplicate_overwrite 0 1 (by decide) ⟨[], 1⟩ ⟨[], 2⟩

/-- C9.  For an input slice of length n (n positive, as required by the
Rust ceil_log2 assert), prep_for_requantize and lookup_witness allocate
each of their K columns with exactly 2 ^ ceil_log2(n) cells; every padding
cell at an index at or beyond n keeps the initialization value zero; and
the first component of lookup_witness, the multiset of looked-up values
range-checked against the Range table, is exactly the concatenation of the
K columns (so each column's padding contributes its zeros to the
multiset), of total length K * 2 ^ ceil_log2(n). -/
theorem columns_shape_padding (rq : Requant) (input : List ℤ)
    (hn : 0 < input.length) :
    (∀ col ∈ (rq.lookup_witness input).2, col.length = 2 ^ ceil_log2 input.length)
      ∧ (∀ col ∈ rq.prep_for_requantize input, col.length = 2 ^ ceil_log2 input.length)
      ∧ (∀ col ∈ (rq.lookup_witness input).2, ∀ i, input.length ≤ i → col.getD i 0 = 0)
      ∧ (∀ col ∈ rq.prep_for_requantize input, ∀ i, input.length ≤ i → col.getD i 0 = 0)
      ∧ (rq.lookup_witness input).1 = (rq.lookup_witness input).2.flatten
      ∧ (rq.lookup_witness input).1.length
          = rq.num_columns * 2 ^ ceil_log2 input.length := by
  have hcol_len : ∀ (row : ℤ → List ℤ), ∀ col ∈ (List.range rq.num_columns).map fun j =>
      (List.range (2 ^ ceil_log2 input.length)).map fun i =>
        match input.get? i with
        | some v => (row v).getD j 0
        | none => (0 : ℤ),
      col.length = 2 ^ ceil_log2 input.length := by
    intro row col hcol
    rcases List.mem_map.mp hcol with ⟨j, _, rfl⟩
    simp
  have hcol_pad : ∀ (row : ℤ → List ℤ), ∀ col ∈ (List.range rq.num_columns).map fun j =>
      (List.range (2 ^ ceil_log2 input.length)).map fun i =>
        match input.get? i with
        | some v => (row v).getD j 0
        | none => (0 : ℤ),
      ∀ i, input.length ≤ i → col.getD i 0 = 0 := by
    intro row col hcol i hi
    rcases List.mem_map.mp hcol with ⟨j, _, rfl⟩
    by_cases hik : i < 2 ^ ceil_log2 input.length
    · rw [getD_range_map _ _ i hik, List.get?_eq_none.mpr hi]
    · rw [List.getD_eq_default]
      simpa using hik
  refine ⟨hcol_len rq.lookupRow, hcol_len rq.prepRow, hcol_pad rq.lookupRow,
    hcol_pad rq.prepRow, rfl, ?_⟩
  have hlen : (rq.lookup_witness input).2.length = rq.num_columns := by
    simp [Requant.lookup_witness]
  calc (rq.lookup_witness input).1.length
      = ((rq.lookup_witness input).2.map List.length).sum := by
        simp [Requant.lookup_witness]
    _ = (List.replicate rq.num_columns (2 ^ ceil_log2 input.length)).sum := by
        congr 1
        rw [List.eq_replicate_iff]
        refine ⟨by simpa using hlen, ?_⟩
        intro x hx
        rcases List.mem_map.mp hx with ⟨col, hcol, rfl⟩
        exact hcol_len rq.lookupRow col hcol
    _ = rq.num_columns * 2 ^ ceil_log2 input.length := by
        rw [List.sum_replicate, smul_eq_mul]

/-- Witness for C9 at the S1 requant with input of length 3 (padded to 4). -/
theorem columns_shape_padding_witness :
    (0 < ([0, -32, 5] : List ℤ).length) ∧
      ((∀ col ∈ (Requant.lookup_witness ⟨8, 128, 256, none⟩ [0, -32, 5]).2,
          col.length = 2 ^ ceil_log2 ([0, -32, 5] : List ℤ).length)
        ∧ (∀ col ∈ Requant.prep_for_requantize ⟨8, 128, 256, none⟩ [0, -32, 5],
            col.length = 2 ^ ceil_log2 ([0, -32, 5] : List ℤ).length)
        ∧ (∀ col ∈ (Requant.lookup_witness ⟨8, 128, 256, none⟩ [0, -32, 5]).2,
            ∀ i, ([0, -32, 5] : List ℤ).length ≤ i → col.getD i 0 = 0)
        ∧ (∀ col ∈ Requant.prep_for_requantize ⟨8, 128, 256, none⟩ [0, -32, 5],
            ∀ i, ([0, -32, 5] : List ℤ).length ≤ i → col.getD i 0 = 0)
        ∧ (Requant.lookup_witness ⟨8, 128, 256, none⟩ [0, -32, 5]).1
            = (Requant.lookup_witness ⟨8, 128, 256, none⟩ [0, -32, 5]).2.flatten
        ∧ (Requant.lookup_witness ⟨8, 128, 256, none⟩ [0, -32, 5]).1.length
            = Requant.num_columns ⟨8, 128, 256, none⟩
                * 2 ^ ceil_log2 ([0, -32, 5] : List ℤ).length) := by
  exact ⟨by decide, columns_shape_padding ⟨8, 128, 256, none⟩ [0, -32, 5] (by decide)⟩

theorem btInsert_keys_mem {α : Type} (k : ℕ) (v : α) :
    ∀ (m : List (ℕ × α)) (j : ℕ),
      j ∈ (btInsert k v m).map Prod.fst ↔ j = k ∨ j ∈ m.map Prod.fst := by
  intro m
  induction m with
  | nil => intro j; simp [btInsert]
  | cons p rest ih =>
    intro j
    rw [btInsert]
    by_cases h1 : k < p.1
    · rw [if_pos h1]
      simp
    · rw [if_neg h1]
      by_cases h2 : k = p.1
      · rw [if_pos h2]
        simp only [List.map_cons, List.mem_cons, h2]
        tauto
      · rw [if_neg h2]
        simp only [List.map_cons, List.mem_cons, ih]
        tauto

theorem btInsert_pairwise {α : Type} (k : ℕ) (v : α) :
    ∀ m : List (ℕ × α),
      List.Pairwise (fun p q => p.1 < q.1) m →
      List.Pairwise (fun p q => p.1 < q.1) (btInsert k v m) := by
  intro m
  induction m with
  | nil => intro _; simp [btInsert]
  | cons p rest ih =>
    intro h
    rcases List.pairwise_cons.mp h with ⟨h1, h2⟩
    rw [btInsert]
    by_cases hlt : k < p.1
    · rw [if_pos hlt]
      refine List.pairwise_cons.mpr ⟨?_, h⟩
      intro q hq
      rcases List.mem_cons.mp hq with rfl | hmem
      · exact hlt
      · exact lt_trans hlt (h1 q hmem)
    · rw [if_neg hlt]
      by_cases heq : k = p.1
      · rw [if_pos heq]
        refine List.pairwise_cons.mpr ⟨?_, h2⟩
        intro q hq
        rw [heq]
        exact h1 q hq
      · rw [if_neg heq]
        refine List.pairwise_cons.mpr ⟨?_, ih h2⟩
        intro q hq
        have hq1 : q.1 = k ∨ q.1 ∈ rest.map Prod.fst :=
          (btInsert_keys_mem k v rest q.1).mp (List.mem_map_of_mem Prod.fst hq)
        rcases hq1 with hqk | hqm
        · omega
        · rcases List.mem_map.mp hqm with ⟨q', hq', hq'1⟩
          rw [← hq'1]
          exact h1 q' hq'

theorem enum_filter_map_indices :
    ∀ (l : List Edge) (k : ℕ),
      ((List.enumFrom k l).filter fun ie => ie.2.node.isNone).map (fun ie => ie.2.index)
        = (l.filter fun e => e.node.isNone).map (·.index) := by
  intro l
  induction l with
  | nil => intro k; rfl
  | cons e rest ih =>
    intro k
    by_cases he : e.node.isNone
    · simp only [List.enumFrom, List.filter_cons, he, if_pos, List.map_cons, ih (k + 1)]
    · simp only [List.enumFrom, List.filter_cons]
      rw [if_neg (by simpa using he), if_neg (by simpa using he)]
      exact ih (k + 1)

theorem scanNode_spec {R : Type} [Inhabited R] (cbn : List (ℕ × List (Claim R)))
    (nid : ℕ) :
    ∀ (es : List (ℕ × Edge)) (m : List (ℕ × Claim R)),
      (∀ ie ∈ es, ie.2.node = none →
        ∃ cs, cbn.lookup nid = some cs ∧ ie.1 < cs.length) →
      ∃ m', scanNode cbn nid es m = .ok m'
        ∧ (List.Pairwise (fun p q => p.1 < q.1) m →
            List.Pairwise (fun p q => p.1 < q.1) m')
        ∧ (∀ j, j ∈ m'.map Prod.fst ↔
            (j ∈ ((es.filter fun ie => ie.2.node.isNone).map fun ie => ie.2.index)
              ∨ j ∈ m.map Prod.fst)) := by
  intro es
  induction es with
  | nil =>
    intro m _
    exact ⟨m, rfl, fun h => h, by simp⟩
  | cons ie rest ih =>
    intro m hpop
    rcases ie with ⟨i, e⟩
    cases he : e.node with
    | some id =>
      rcases ih m (fun x hx => hpop x (by simp [hx])) with ⟨m', hok, hpw, hkeys⟩
      refine ⟨m', ?_, hpw, ?_⟩
      · rw [scanNode, he]
        exact hok
      · intro j
        rw [hkeys j, List.filter_cons, if_neg (by simp [he])]
    | none =>
      rcases hpop (i, e) (by simp) he with ⟨cs, hlk, hbound⟩
      rcases ih (btInsert e.index (cs.get ⟨i, hbound⟩) m)
          (fun x hx => hpop x (by simp [hx])) with ⟨m', hok, hpw, hkeys⟩
      refine ⟨m', ?_, ?_, ?_⟩
      · have hbound2 : i < cs.length := hbound
        rw [scanNode]
        simp only [he, hlk]
        rw [dif_pos hbound2]
        exact hok
      · intro hm
        exact hpw (btInsert_pairwise _ _ m hm)
      · intro j
        rw [hkeys j, List.filter_cons, if_pos (by simp [he]), List.map_cons,
          List.mem_cons, btInsert_keys_mem]
        tauto

theorem scanInputs_spec {R : Type} [Inhabited R] (cbn : List (ℕ × List (Claim R))) :
    ∀ (nodes : List (ℕ × NodeConn)) (m : List (ℕ × Claim R)),
      (∀ p ∈ nodes, nodePopulated cbn p.1 p.2.inputs = true) →
      ∃ m', scanInputs cbn nodes m = .ok m'
        ∧ (List.Pairwise (fun p q => p.1 < q.1) m →
            List.Pairwise (fun p q => p.1 < q.1) m')
        ∧ (∀ j, j ∈ m'.map Prod.fst ↔
            (j ∈ modelInputIndices nodes ∨ j ∈ m.map Prod.fst)) := by
  intro nodes
  induction nodes with
  | nil =>
    intro m _
    exact ⟨m, rfl, fun h => h, by simp [modelInputIndices]⟩
  | cons p rest ih =>
    intro m hpop
    rcases p with ⟨nid, ctx⟩
    have hnode : ∀ ie ∈ ctx.inputs.enum, ie.2.node = none →
        ∃ cs, cbn.lookup nid = some cs ∧ ie.1 < cs.length := by
      intro ie hie hnone
      have hall := List.all_eq_true.mp (hpop (nid, ctx) (by simp)) ie hie
      rw [hnone] at hall
      simp only [Option.isSome_none, Bool.false_or] at hall
      cases hlk : cbn.lookup nid with
      | none => rw [hlk] at hall; simp at hall
      | some cs =>
        rw [hlk] at hall
        exact ⟨cs, rfl, of_decide_eq_true hall⟩
    rcases scanNode_spec cbn nid ctx.inputs.enum m hnode with ⟨m1, hok1, hpw1, hkeys1⟩
    rcases ih m1 (fun x hx => hpop x (by simp [hx])) with ⟨m', hok, hpw, hkeys⟩
    refine ⟨m', ?_, fun hm => hpw (hpw1 hm), ?_⟩
    · rw [scanInputs, hok1]
      exact hok
    · intro j
      have hbridge : ((ctx.inputs.enum.filter fun ie => ie.2.node.isNone).map
            fun ie => ie.2.index)
          = (ctx.inputs.filter fun e => e.node.isNone).map (·.index) := by
        rw [List.enum]
        exact enum_filter_map_indices ctx.inputs 0
      have hmm : j ∈ modelInputIndices ((nid, ctx) :: rest)
          ↔ (j ∈ (ctx.inputs.filter fun e => e.node.isNone).map (·.index)
              ∨ j ∈ modelInputIndices rest) := by
        simp [modelInputIndices]
      rw [hkeys j, hkeys1 j, hbridge, hmm]
      tauto

theorem sorted_head_le (ks : List ℕ) (d : ℕ)
    (hs : List.Pairwise (· < ·) ks) :
    ∀ x ∈ ks, ks.headD d ≤ x := by
  cases ks with
  | nil => intro x hx; simp at hx
  | cons a t =>
    intro x hx
    rcases List.mem_cons.mp hx with rfl | hmem
    · simp
    · have := (List.pairwise_cons.mp hs).1 x hmem
      simp
      omega

theorem sorted_le_last :
    ∀ (ks : List ℕ) (d : ℕ), List.Pairwise (· < ·) ks →
      ∀ x ∈ ks, x ≤ ks.getLastD d := by
  intro ks
  induction ks with
  | nil => intro d _ x hx; simp at hx
  | cons a t ih =>
    intro d hs x hx
    rw [List.getLastD_cons]
    rcases List.mem_cons.mp hx with rfl | hmem
    · rcases List.mem_cons.mp (List.getLastD_mem_cons t x) with heq | hmem2
      · omega
      · exact le_of_lt ((List.pairwise_cons.mp hs).1 _ hmem2)
    · exact ih a (List.pairwise_cons.mp hs).2 x hmem

theorem sorted_mem_iff_range (ks : List ℕ) (hs : List.Pairwise (· < ·) ks)
    (k : ℕ) :
    (∀ j, j ∈ ks ↔ j < k) ↔ ks = List.range k := by
  constructor
  · intro hmem
    have hnd : ks.Nodup := hs.imp fun h => ne_of_lt h
    have hfin : ks.toFinset = (List.range k).toFinset := by
      ext j
      simp [hmem j]
    have hperm : ks.Perm (List.range k) :=
      List.perm_of_nodup_nodup_toFinset_eq hnd (List.nodup_range k) hfin
    haveI : IsAntisymm ℕ (· < ·) := ⟨fun a b h1 h2 => absurd h2 (lt_asymm h1)⟩
    exact List.eq_of_perm_of_sorted hperm hs (List.pairwise_lt_range k)
  · rintro rfl
    intro j
    simp

theorem sorted_head_last_range (ks : List ℕ)
    (hs : List.Pairwise (· < ·) ks) (hne : ks ≠ [])
    (h0 : ks.headD 0 = 0) (hl : ks.getLastD 0 = ks.length - 1) :
    ks = List.range ks.length := by
  have hlen : 1 ≤ ks.length := by
    cases ks with
    | nil => exact absurd rfl hne
    | cons a t => simp
  apply (sorted_mem_iff_range ks hs ks.length).mp
  intro j
  constructor
  · intro hj
    have := sorted_le_last ks 0 hs j hj
    omega
  · intro hj
    have hnd : ks.Nodup := hs.imp fun h => ne_of_lt h
    have hsub : ks.toFinset ⊆ Finset.range ks.length := by
      intro x hx
      have hxm : x ∈ ks := List.mem_toFinset.mp hx
      have := sorted_le_last ks 0 hs x hxm
      rw [Finset.mem_range]
      omega
    have hcard : (Finset.range ks.length).card ≤ ks.toFinset.card := by
      rw [Finset.card_range, List.toFinset_card_of_nodup hnd]
    have heq := Finset.eq_of_subset_of_card_le hsub hcard
    have : j ∈ ks.toFinset := by
      rw [heq, Finset.mem_range]
      exact hj
    exact List.mem_toFinset.mp this

theorem headD_fst {α : Type} (m : List (ℕ × α)) (d : ℕ × α) :
    (m.headD d).1 = (m.map Prod.fst).headD d.1 := by
  cases m <;> simp

theorem getLastD_fst {α : Type} :
    ∀ (m : List (ℕ × α)) (d : ℕ × α),
      (m.getLastD d).1 = (m.map Prod.fst).getLastD d.1 := by
  intro m
  induction m with
  | nil => intro d; rfl
  | cons p t ih =>
    intro d
    rw [List.getLastD_cons, List.map_cons, List.getLastD_cons, ih p]

/-- C8.  Given a claims map populated for every scanned node (each
model-input edge position resolves to an existing claim, so that the
indexing claims_for_node[i] cannot panic), input_claims returns Ok of
exactly k claims if and only if the set of model-input indices referenced
by the nodes' input edges is exactly the interval 0..k-1 for some k at
least 1; when no model-input edge is found or the indices have a gap or do
not start at 0 it returns an error; and on success the underlying BTreeMap
iteration yields the keys 0, 1, ..., k-1 in increasing order with the
returned claims in that key order. -/
theorem input_claims_complete {R : Type} [Inhabited R]
    (nodes : List (ℕ × NodeConn)) (cbn : List (ℕ × List (Claim R)))
    (hpop : ∀ p ∈ nodes, nodePopulated cbn p.1 p.2.inputs = true) :
    (∀ k, (∃ l, input_claims nodes cbn = .ok l ∧ l.length = k)
        ↔ (1 ≤ k ∧ ∀ j, j ∈ modelInputIndices nodes ↔ j < k))
      ∧ (∀ l, input_claims nodes cbn = .ok l →
          ∃ m, scanInputs cbn nodes [] = .ok m
            ∧ m.map Prod.fst = List.range l.length ∧ l = m.map (·.2))
      ∧ ((¬ ∃ k, 1 ≤ k ∧ ∀ j, j ∈ modelInputIndices nodes ↔ j < k) →
          input_claims nodes cbn = .errFail) := by
  rcases scanInputs_spec cbn nodes [] hpop with ⟨m, hscan, hpw, hkeys⟩
  have hm := hpw List.Pairwise.nil
  have hks : List.Pairwise (· < ·) (m.map Prod.fst) :=
    List.Pairwise.map Prod.fst (fun a b h => h) hm
  have hidx : ∀ j, (j ∈ m.map Prod.fst ↔ j ∈ modelInputIndices nodes) := by
    intro j
    rw [hkeys j]
    simp
  by_cases hlen : m.length < 1
  · have hmnil : m = [] := by
      cases m with
      | nil => rfl
      | cons a t => simp at hlen
    subst hmnil
    have hres : input_claims nodes cbn = .errFail := by
      simp [input_claims, hscan]
    refine ⟨?_, ?_, fun _ => hres⟩
    · intro k
      constructor
      · rintro ⟨l, hok, rfl⟩
        rw [hres] at hok
        exact absurd hok (by simp)
      · rintro ⟨hk1, hmem⟩
        exfalso
        have h0 : (0 : ℕ) ∈ modelInputIndices nodes := (hmem 0).mpr (by omega)
        have := (hidx 0).mpr h0
        simp at this
    · intro l hok
      rw [hres] at hok
      exact absurd hok (by simp)
  · have hmne : m ≠ [] := by
      cases m with
      | nil => simp at hlen
      | cons a t => simp
    by_cases hcond : (m.headD (0, ⟨[], default⟩)).1 = 0
        ∧ (m.getLastD (0, ⟨[], default⟩)).1 = m.length - 1
    · have hres : input_claims nodes cbn = .ok (m.map (·.2)) := by
        simp only [input_claims, hscan]
        rw [if_neg hlen, if_pos hcond]
      have hksne : m.map Prod.fst ≠ [] := by simpa using hmne
      have hrange : m.map Prod.fst = List.range (m.map Prod.fst).length := by
        apply sorted_head_last_range _ hks hksne
        · rw [← headD_fst m (0, ⟨[], default⟩)]
          exact hcond.1
        · rw [← getLastD_fst m (0, ⟨[], default⟩)]
          simpa using hcond.2
      have hmemlen : ∀ j, j ∈ modelInputIndices nodes ↔ j < m.length := by
        intro j
        rw [← hidx j, hrange]
        simp
      refine ⟨?_, ?_, ?_⟩
      · intro k
        constructor
        · rintro ⟨l, hok, rfl⟩
          rw [hres] at hok
          injection hok with h
          have hml : l.length = m.length := by
            rw [← h]
            simp
          refine ⟨by omega, ?_⟩
          intro j
          rw [hml]
          exact hmemlen j
        · rintro ⟨hk1, hmem⟩
          refine ⟨m.map (·.2), hres, ?_⟩
          have hlk : ∀ j, j < m.length ↔ j < k :=
            fun j => ((hmemlen j).symm.trans (hmem j))
          have h1 := hlk m.length
          have h2 := hlk k
          simp only [List.length_map]
          omega
      · intro l hok
        rw [hres] at hok
        injection hok with h
        have hml : l.length = m.length := by
          rw [← h]
          simp
        refine ⟨m, hscan, ?_, h.symm⟩
        rw [hrange]
        congr 1
        simp [hml]
      · intro hnex
        exfalso
        exact hnex ⟨m.length, by omega, hmemlen⟩
    · have hres : input_claims nodes cbn = .errFail := by
        simp only [input_claims, hscan]
        rw [if_neg hlen, if_neg hcond]
      refine ⟨?_, ?_, fun _ => hres⟩
      · intro k
        constructor
        · rintro ⟨l, hok, rfl⟩
          rw [hres] at hok
          exact absurd hok (by simp)
        · rintro ⟨hk1, hmem⟩
          exfalso
          apply hcond
          have hmemks : ∀ j, j ∈ m.map Prod.fst ↔ j < k :=
            fun j => (hidx j).trans (hmem j)
          have hrange := (sorted_mem_iff_range _ hks k).mp hmemks
          have hlk : m.length = k := by
            have := congrArg List.length hrange
            simpa using this
          constructor
          · rw [headD_fst m (0, ⟨[], default⟩), hrange]
            cases k with
            | zero => omega
            | succ kk => rw [List.range_succ_eq_map]; rfl
          · rw [getLastD_fst m (0, ⟨[], default⟩), hrange, hlk]
            cases k with
            | zero => omega
            | succ kk =>
              rw [List.range_succ, List.getLastD_concat]
              omega
      · intro l hok
        rw [hres] at hok
        exact absurd hok (by simp)

/-- Witness for C8: two nodes referencing model inputs 1 and 0 produce two
claims in index order. -/
theorem input_claims_complete_witness :
    (∀ p ∈ ([(0, ⟨[⟨none, 1⟩], []⟩), (1, ⟨[⟨none, 0⟩], []⟩)] : List (ℕ × NodeConn)),
        nodePopulated [(0, [⟨[], (5 : ℤ)⟩]), (1, [⟨[], 6⟩])] p.1 p.2.inputs = true) ∧
      ((∃ l, input_claims [(0, ⟨[⟨none, 1⟩], []⟩), (1, ⟨[⟨none, 0⟩], []⟩)]
            [(0, [⟨[], (5 : ℤ)⟩]), (1, [⟨[], 6⟩])] = .ok l ∧ l.length = 2)
        ↔ (1 ≤ 2 ∧ ∀ j, j ∈ modelInputIndices
            [(0, ⟨[⟨none, 1⟩], []⟩), (1, ⟨[⟨none, 0⟩], []⟩)] ↔ j < 2)) := by
  refine ⟨by decide, ?_⟩
  exact (input_claims_complete [(0, ⟨[⟨none, 1⟩], []⟩), (1, ⟨[⟨none, 0⟩], []⟩)]
    [(0, [⟨[], (5 : ℤ)⟩]), (1, [⟨[], 6⟩])] (by decide)).1 2
